import Mathlib

/-!
Verification development for the protein CRUD application
(`proteinApp/Backend/app.py`).

The pure computational core (sequence normalization, validation,
composition analysis) is embedded directly from the source.  Stateful
database operations are embedded as explicit state passing over a list of
rows.  Python floats are modelled as exact rationals: every constant in
`AMINO_ACID_WEIGHTS` is an exact multiple of 1/100, so every reachable
sum is an exact multiple of 1/100 and `round(w, 2)` never meets a
half-way case, making the rational model agree with any round-half rule.
-/

namespace ProteinApp

/-- Whitespace characters removed by Python `str.strip()` (ASCII range). -/
def isPySpace (c : Char) : Bool :=
  c = ' ' || c = '\t' || c = '\n' || c = '\r' || c = '\x0b' || c = '\x0c'

/-- Python `str.strip()`: removes leading and trailing whitespace only. -/
def pyStrip (l : List Char) : List Char :=
  ((l.dropWhile isPySpace).reverse.dropWhile isPySpace).reverse

/-- Python `str.upper()` restricted to ASCII, applied character-wise
(`sequence.upper()` in the source). -/
def pyUpperList (l : List Char) : List Char :=
  l.map Char.toUpper

/-- `VALID_AMINO_ACIDS = set("ARNDCEQGHILKMFPSTWYV")` (app.py line 32).
Python set iteration order is unspecified; we fix the order of the source
string literal.  No claim depends on the iteration order. -/
def VALID_AMINO_ACIDS : List Char :=
  ['A', 'R', 'N', 'D', 'C', 'E', 'Q', 'G', 'H', 'I',
   'L', 'K', 'M', 'F', 'P', 'S', 'T', 'W', 'Y', 'V']

/-- `AMINO_ACID_WEIGHTS` constant table (app.py lines 34-40), exact
rationals in Daltons. -/
def AMINO_ACID_WEIGHTS : List (Char × ℚ) :=
  [('A', 89.09),  ('R', 174.20), ('N', 132.12), ('D', 133.10),
   ('C', 121.15), ('Q', 146.15), ('E', 147.13), ('G', 75.07),
   ('H', 155.16), ('I', 131.17), ('L', 131.17), ('K', 146.19),
   ('M', 149.21), ('F', 165.19), ('P', 115.13), ('S', 105.09),
   ('T', 119.12), ('W', 204.23), ('Y', 181.19), ('V', 117.15)]

/-- `AMINO_ACID_WEIGHTS.get(aa, 0)`: dictionary lookup with default 0. -/
def weightOf (c : Char) : ℚ :=
  (AMINO_ACID_WEIGHTS.lookup c).getD 0

/-- Python `round(x, 2)` on the exact-rational model: round `x * 100` to
the nearest integer and divide back.  On every value this program feeds
it, `x * 100` is an integer, so all round-half conventions coincide. -/
def round2 (q : ℚ) : ℚ :=
  (round (q * 100) : ℚ) / 100

/-- `calculate_molecular_weight` (app.py lines 42-45): upper-case, sum
table weights with default 0 for unknown characters, round to 2 dp. -/
def calculate_molecular_weight (s : List Char) : ℚ :=
  round2 (((pyUpperList s).map weightOf).sum)

/-- The initial frequency dictionary `{aa: 0 for aa in VALID_AMINO_ACIDS}`
as an association list. -/
def freqInit : List (Char × Nat) :=
  VALID_AMINO_ACIDS.map (fun a => (a, 0))

/-- One step of the counting loop: `if aa in freq: freq[aa] += 1`.
Keys of the dictionary are distinct, so incrementing every entry whose
key equals `c` is the Python dictionary update; a `c` that is not a key
leaves the list unchanged. -/
def bump (f : List (Char × Nat)) (c : Char) : List (Char × Nat) :=
  f.map (fun p => if p.1 = c then (p.1, p.2 + 1) else p)

/-- `amino_acid_frequency` (app.py lines 47-53). -/
def amino_acid_frequency (s : List Char) : List (Char × Nat) :=
  (pyUpperList s).foldl bump freqInit

/-- `sum(freq.values())`. -/
def freqValuesSum (f : List (Char × Nat)) : Nat :=
  (f.map Prod.snd).sum

/-- `len([aa for aa in freq_dict if freq_dict[aa] > 0])`
(app.py lines 94 and 252). -/
def uniqueCountOf (f : List (Char × Nat)) : Nat :=
  (f.filter (fun p => decide (0 < p.2))).length

/-- `[c for c in sequence if c not in VALID_AMINO_ACIDS]`
(app.py lines 86 and 244). -/
def invalid_chars (s : List Char) : List Char :=
  s.filter (fun c => decide (c ∉ VALID_AMINO_ACIDS))

/-- The flash message `f"Invalid characters: {', '.join(invalid_chars)}"`. -/
def invalidMessage (l : List Char) : String :=
  "Invalid characters: " ++ String.intercalate ", " (l.map (fun c => String.mk [c]))

/-- The record assembled by a successful analysis/edit. -/
structure ProteinData where
  name : List Char
  sequence : List Char
  length : Nat
  molecular_weight : ℚ
  unique_count : Nat
  frequencies : List (Char × Nat)
deriving DecidableEq, Repr

/-- Outcome of the `/analyze` (create) handler's pure core. -/
inductive AnalyzeResult where
  | missingInput
  | invalidChars (offending : List Char)
  | ok (r : ProteinData)
deriving DecidableEq, Repr

/-- The `/analyze` handler (app.py lines 75-96): strip both fields,
reject missing input, upper-case the sequence, reject invalid characters,
otherwise compute all derived fields. -/
def analyze (protein_name sequence : List Char) : AnalyzeResult :=
  let name := pyStrip protein_name
  let seq0 := pyStrip sequence
  if name = [] ∨ seq0 = [] then .missingInput
  else
    let seq := pyUpperList seq0
    if invalid_chars seq ≠ [] then .invalidChars (invalid_chars seq)
    else
      .ok { name := name
            sequence := seq
            length := seq.length
            molecular_weight := calculate_molecular_weight seq
            unique_count := uniqueCountOf (amino_acid_frequency seq)
            frequencies := amino_acid_frequency seq }

/-- Decimal digit `d` (`d < 10`) as a character. -/
def digitChar (d : Nat) : Char := Char.ofNat (48 + d)

/-- Decimal rendering of a natural number, as `repr(int)` renders it. -/
def natToChars (n : Nat) : List Char :=
  if n = 0 then ['0'] else ((Nat.digits 10 n).reverse.map digitChar)

/-- Numeric value of a digit character. -/
def digitVal (c : Char) : Nat := c.toNat - 48

/-- Value of a big-endian list of digit characters. -/
def charsToNat (l : List Char) : Nat :=
  Nat.ofDigits 10 ((l.map digitVal).reverse)

/-- Modelled from the spec: the store persists `frequencies` as a
serialized text blob (`json.dumps` in the handlers; the `json` module is
not part of this repository).  One serialized entry, exactly as
`json.dumps` renders a single-character key with an integer value. -/
def serializeEntry (p : Char × Nat) : List Char :=
  '"' :: p.1 :: '"' :: ':' :: ' ' :: natToChars p.2

/-- Entries joined by the default `json.dumps` item separator. -/
def serializeEntries : List (Char × Nat) → List Char
  | [] => []
  | [p] => serializeEntry p
  | p :: q :: ps => serializeEntry p ++ ',' :: ' ' :: serializeEntries (q :: ps)

/-- Modelled from the spec: `json.dumps` of a flat character-to-count
mapping, i.e. the text blob stored in the `frequencies` column. -/
def serialize (f : List (Char × Nat)) : List Char :=
  '\x7b' :: (serializeEntries f ++ ['\x7d'])

/-- Parse a run of decimal digits at the front of the input. -/
def parseNat (l : List Char) : Option (Nat × List Char) :=
  let ds := l.takeWhile Char.isDigit
  if ds.isEmpty then none else some (charsToNat ds, l.dropWhile Char.isDigit)

/-- Parse one serialized entry: `"C": n`. -/
def parseEntry (l : List Char) : Option ((Char × Nat) × List Char) :=
  match l with
  | '"' :: c :: '"' :: ':' :: ' ' :: rest =>
      match parseNat rest with
      | some (n, r) => some ((c, n), r)
      | none => none
  | _ => none

/-- Parse a nonempty comma-separated entry sequence (fuelled). -/
def parseEntriesAux : Nat → List Char → Option (List (Char × Nat) × List Char)
  | 0, _ => none
  | Nat.succ fuel, l =>
      match parseEntry l with
      | none => none
      | some (e, r) =>
          match r with
          | ',' :: ' ' :: r2 =>
              match parseEntriesAux fuel r2 with
              | some (es, r3) => some (e :: es, r3)
              | none => none
          | _ => some ([e], r)

/-- Modelled from the spec: `json.loads` restricted to the flat
object shape that `serialize` produces (the store round-trip contract). -/
def deserialize (l : List Char) : Option (List (Char × Nat)) :=
  match l with
  | '\x7b' :: '\x7d' :: [] => some []
  | '\x7b' :: rest =>
      match parseEntriesAux rest.length rest with
      | some (es, ['\x7d']) => some es
      | _ => none
  | _ => none

/-- A row of the `proteins` table.  The `frequencies` column is the
serialized text blob, as stored. -/
structure ProteinRow where
  id : Nat
  name : List Char
  sequence : List Char
  length : Nat
  molecular_weight : ℚ
  unique_count : Nat
  frequencies : List Char
deriving DecidableEq, Repr

/-- `delete_protein` (app.py lines 210-226): `DELETE FROM proteins WHERE
id=%s`, commit, and flash `"Protein deleted successfully!"`
unconditionally.  The handler never inspects whether a row matched, so
the flashed message is the same whether or not the id exists. -/
def delete_protein (db : List ProteinRow) (pid : Nat) : List ProteinRow × String :=
  (db.filter (fun r => decide (r.id ≠ pid)), "Protein deleted successfully!")

/-- Outcome of the `/edit` POST handler's pure core. -/
inductive EditResult where
  | notFound
  | invalidChars (offending : List Char)
  | updated (pid : Nat)
deriving DecidableEq, Repr

/-- `edit_protein` POST branch (app.py lines 228-273): fetch the row
(`NotFound` when absent), strip the name, strip-and-upper the sequence,
reject invalid characters, otherwise recompute every derived field and
`UPDATE` the row.  Note: the handler has no missing-input check. -/
def edit_protein (db : List ProteinRow) (pid : Nat)
    (protein_name sequence : List Char) : EditResult × List ProteinRow :=
  match db.find? (fun r => decide (r.id = pid)) with
  | none => (.notFound, db)
  | some _ =>
      let name := pyStrip protein_name
      let seq := pyUpperList (pyStrip sequence)
      if invalid_chars seq ≠ [] then (.invalidChars (invalid_chars seq), db)
      else
        (.updated pid,
         db.map (fun r =>
           if r.id = pid then
             { r with name := name
                      sequence := seq
                      length := seq.length
                      molecular_weight := calculate_molecular_weight seq
                      unique_count := uniqueCountOf (amino_acid_frequency seq)
                      frequencies := serialize (amino_acid_frequency seq) }
           else r))

/-- Does `needle` occur at the head of `hay`? -/
def startsWithList : List Char → List Char → Bool
  | [], _ => true
  | _ :: _, [] => false
  | a :: as, b :: bs => a == b && startsWithList as bs

/-- Modelled from the spec: MySQL `LIKE '%q%'` on a stored text field.
The column collation is not part of the repository; the spec states the
predicate is a case-sensitive substring (contains) match. -/
def occursIn (needle : List Char) : List Char → Bool
  | [] => needle.isEmpty
  | b :: bs => startsWithList needle (b :: bs) || occursIn needle bs

/-- The conditions appended to `WHERE 1=1` by the `/search` handler
(app.py lines 145-153): one `LIKE` condition per non-empty filter. -/
def rowConds (qn qs : List Char) : List (ProteinRow → Bool) :=
  (if qn.isEmpty then [] else [fun r => occursIn qn r.name]) ++
  (if qs.isEmpty then [] else [fun r => occursIn qs r.sequence])

/-- `search` (app.py lines 131-156): rows satisfying every appended
condition, in store order. -/
def search (db : List ProteinRow) (qn qs : List Char) : List ProteinRow :=
  db.filter (fun r => (rowConds qn qs).all (fun c => c r))

/-- The spec's description of `search`: when a filter is present the
corresponding contains-predicate must hold, both when both are present,
and no constraint when absent. -/
def searchSpec (db : List ProteinRow) (qn qs : List Char) : List ProteinRow :=
  db.filter (fun r =>
    decide ((qn ≠ [] → occursIn qn r.name = true) ∧
            (qs ≠ [] → occursIn qs r.sequence = true)))

/-- A concrete stored row used for counterexamples and witnesses. -/
def demoRow : ProteinRow :=
  { id := 1
    name := "Insulin-A".toList
    sequence := "GIVGQCC".toList
    length := 7
    molecular_weight := 786.91
    unique_count := 5
    frequencies := [] }

theorem dropWhile_eq_self_of (p : Char → Bool) (l : List Char)
    (h : ∀ c ∈ l, p c = false) : l.dropWhile p = l := by
  cases l with
  | nil => rfl
  | cons c t =>
      rw [List.dropWhile_cons, h c (List.mem_cons_self c t)]
      simp

theorem pyStrip_eq_self {l : List Char}
    (h : ∀ c ∈ l, isPySpace c = false) : pyStrip l = l := by
  unfold pyStrip
  rw [dropWhile_eq_self_of _ _ h,
      dropWhile_eq_self_of _ _ (fun c hc => h c (List.mem_reverse.mp hc)),
      List.reverse_reverse]

theorem valid_not_space : ∀ c ∈ VALID_AMINO_ACIDS, isPySpace c = false := by decide

theorem valid_toUpper : ∀ c ∈ VALID_AMINO_ACIDS, c.toUpper = c := by decide

theorem valid_nodup : VALID_AMINO_ACIDS.Nodup := by decide

theorem pyUpperList_eq_self {s : List Char}
    (h : ∀ c ∈ s, c ∈ VALID_AMINO_ACIDS) : pyUpperList s = s := by
  unfold pyUpperList
  conv_rhs => rw [← List.map_id s]
  exact List.map_congr_left fun a ha => valid_toUpper a (h a ha)

theorem bump_map (g : Char → Nat) (keys : List Char) (c : Char) :
    bump (keys.map fun a => (a, g a)) c
      = keys.map fun a => (a, g a + if a = c then 1 else 0) := by
  unfold bump
  rw [List.map_map]
  refine List.map_congr_left fun a _ => ?_
  by_cases hac : a = c <;> simp [hac]

theorem foldl_bump (s : List Char) : ∀ (g : Char → Nat) (keys : List Char),
    s.foldl bump (keys.map fun a => (a, g a))
      = keys.map fun a => (a, g a + s.count a) := by
  induction s with
  | nil => intro g keys; simp
  | cons c t ih =>
      intro g keys
      rw [List.foldl_cons, bump_map, ih]
      refine List.map_congr_left fun a _ => ?_
      by_cases hac : a = c
      · simp [hac, List.count_cons]
        omega
      · simp [hac, List.count_cons]

/-- The frequency dictionary is the alphabet paired with occurrence
counts of the upper-cased sequence. -/
theorem amino_acid_frequency_eq (s : List Char) :
    amino_acid_frequency s
      = VALID_AMINO_ACIDS.map fun a => (a, (pyUpperList s).count a) := by
  unfold amino_acid_frequency freqInit
  rw [foldl_bump (pyUpperList s) (fun _ => 0) VALID_AMINO_ACIDS]
  simp

theorem sum_map_add (keys : List Char) (f g : Char → Nat) :
    (keys.map fun a => f a + g a).sum = (keys.map f).sum + (keys.map g).sum := by
  induction keys with
  | nil => rfl
  | cons k ks ih => simp [ih]; omega

theorem sum_map_indicator_zero (c : Char) : ∀ (keys : List Char), c ∉ keys →
    (keys.map fun a => if c = a then (1 : Nat) else 0).sum = 0 := by
  intro keys
  induction keys with
  | nil => intro _; rfl
  | cons k ks ih =>
      intro h
      have hck : ¬ c = k := fun hck => h (by rw [hck]; exact List.mem_cons_self k ks)
      rw [List.map_cons, List.sum_cons, if_neg hck,
          ih (fun hk => h (List.mem_cons_of_mem k hk))]

theorem sum_map_indicator (c : Char) : ∀ (keys : List Char), keys.Nodup → c ∈ keys →
    (keys.map fun a => if c = a then (1 : Nat) else 0).sum = 1 := by
  intro keys
  induction keys with
  | nil => intro _ h; cases h
  | cons k ks ih =>
      intro hn hm
      rw [List.map_cons, List.sum_cons]
      rcases List.mem_cons.mp hm with rfl | hmem
      · rw [if_pos rfl, sum_map_indicator_zero c ks (List.nodup_cons.mp hn).1]
      · have hck : c ≠ k := fun hck => (List.nodup_cons.mp hn).1 (hck ▸ hmem)
        rw [if_neg hck, ih (List.nodup_cons.mp hn).2 hmem]

theorem length_eq_sum_counts (keys : List Char) (hn : keys.Nodup) :
    ∀ u : List Char, (∀ c ∈ u, c ∈ keys) →
      (keys.map fun a => u.count a).sum = u.length := by
  intro u
  induction u with
  | nil => intro _; simp
  | cons c t ih =>
      intro h
      have hc : c ∈ keys := h c (List.mem_cons_self c t)
      have ht : ∀ x ∈ t, x ∈ keys := fun x hx => h x (List.mem_cons_of_mem c hx)
      have step : (keys.map fun a => (c :: t).count a).sum
          = (keys.map fun a => t.count a + if c = a then 1 else 0).sum := by
        refine congrArg List.sum (List.map_congr_left fun a _ => ?_)
        rw [List.count_cons]
        by_cases hca : c = a <;> simp [hca]
      rw [step, sum_map_add, ih ht, sum_map_indicator c keys hn hc, List.length_cons]

/-- Claim C1: for a sequence made only of the 20 valid-alphabet
characters, the analyzer's computed length (the length of the
normalized sequence it stores) equals the character count, and the
values of the frequency mapping computed by `amino_acid_frequency` sum
to the character count. -/
theorem C1_length_and_frequency_sum (s : List Char)
    (h : ∀ c ∈ s, c ∈ VALID_AMINO_ACIDS) :
    (pyUpperList (pyStrip s)).length = s.length ∧
    freqValuesSum (amino_acid_frequency s) = s.length := by
  have hstrip : pyStrip s = s :=
    pyStrip_eq_self (fun c hc => valid_not_space c (h c hc))
  have hupper : pyUpperList s = s := pyUpperList_eq_self h
  constructor
  · rw [hstrip, hupper]
  · unfold freqValuesSum
    rw [amino_acid_frequency_eq, List.map_map]
    have hcomp : VALID_AMINO_ACIDS.map (Prod.snd ∘ fun a => (a, (pyUpperList s).count a))
        = VALID_AMINO_ACIDS.map fun a => (pyUpperList s).count a := rfl
    rw [hcomp, hupper, length_eq_sum_counts VALID_AMINO_ACIDS valid_nodup s h]

/-- Witness for C1 at the concrete sequence GIVGQCC. -/
theorem C1_length_and_frequency_sum_witness :
    (pyUpperList (pyStrip ['G', 'I', 'V', 'G', 'Q', 'C', 'C'])).length = 7 ∧
    freqValuesSum (amino_acid_frequency ['G', 'I', 'V', 'G', 'Q', 'C', 'C']) = 7 := by
  simpa using C1_length_and_frequency_sum ['G', 'I', 'V', 'G', 'Q', 'C', 'C'] (by decide)

theorem filter_map_assoc (l : List Char) (f : Char → Char × Nat) (p : Char × Nat → Bool) :
    (l.map f).filter p = (l.filter fun a => p (f a)).map f := by
  induction l with
  | nil => rfl
  | cons k ks ih =>
      rw [List.map_cons, List.filter_cons, List.filter_cons]
      by_cases h : p (f k) <;> simp [h, ih]

/-- Claim C3: for a valid sequence, the computed unique count is the
number of distinct characters of the sequence, coincides with the
number of frequency entries with strictly positive value, and is at
most 20. -/
theorem C3_unique_count (s : List Char)
    (h : ∀ c ∈ s, c ∈ VALID_AMINO_ACIDS) :
    uniqueCountOf (amino_acid_frequency s) = s.toFinset.card ∧
    uniqueCountOf (amino_acid_frequency s)
      = ((amino_acid_frequency s).filter fun p => decide (0 < p.2)).length ∧
    uniqueCountOf (amino_acid_frequency s) ≤ 20 := by
  have hupper : pyUpperList s = s := pyUpperList_eq_self h
  have key : uniqueCountOf (amino_acid_frequency s)
      = (VALID_AMINO_ACIDS.filter fun a => decide (0 < s.count a)).length := by
    unfold uniqueCountOf
    rw [amino_acid_frequency_eq, hupper, filter_map_assoc, List.length_map]
  refine ⟨?_, rfl, ?_⟩
  · rw [key]
    have hcongr : (VALID_AMINO_ACIDS.filter fun a => decide (0 < s.count a))
        = VALID_AMINO_ACIDS.filter fun a => decide (a ∈ s) := by
      refine List.filter_congr fun a _ => ?_
      simp [List.count_pos_iff]
    rw [hcongr]
    have hnd : (VALID_AMINO_ACIDS.filter fun a => decide (a ∈ s)).Nodup :=
      valid_nodup.filter _
    rw [← List.toFinset_card_of_nodup hnd]
    congr 1
    ext a
    simp only [List.mem_toFinset, List.mem_filter, decide_eq_true_eq]
    exact ⟨fun x => x.2, fun ha => ⟨h a ha, ha⟩⟩
  · rw [key]
    calc (VALID_AMINO_ACIDS.filter fun a => decide (0 < s.count a)).length
        ≤ VALID_AMINO_ACIDS.length := List.length_filter_le _ _
      _ = 20 := by decide

/-- Witness for C3 at the concrete sequence GIVGQCC. -/
theorem C3_unique_count_witness :
    uniqueCountOf (amino_acid_frequency ['G', 'I', 'V', 'G', 'Q', 'C', 'C'])
      = (['G', 'I', 'V', 'G', 'Q', 'C', 'C'] : List Char).toFinset.card ∧
    uniqueCountOf (amino_acid_frequency ['G', 'I', 'V', 'G', 'Q', 'C', 'C'])
      = ((amino_acid_frequency ['G', 'I', 'V', 'G', 'Q', 'C', 'C']).filter
          fun p => decide (0 < p.2)).length ∧
    uniqueCountOf (amino_acid_frequency ['G', 'I', 'V', 'G', 'Q', 'C', 'C']) ≤ 20 :=
  C3_unique_count ['G', 'I', 'V', 'G', 'Q', 'C', 'C'] (by decide)

/-- Claim C4: validation collects exactly the characters outside the
alphabet, in order of appearance with duplicates preserved (a sublist
of the normalized sequence, with exact multiplicities); the offending
list is empty exactly when every character is valid; validating AXZ
yields X then Z, and the user-facing message joins them with a comma
and a space. -/
theorem C4_offending_characters (s : List Char) :
    (invalid_chars s).Sublist s ∧
    (∀ c : Char, (invalid_chars s).count c
        = if c ∈ VALID_AMINO_ACIDS then 0 else s.count c) ∧
    (invalid_chars s = [] ↔ ∀ c ∈ s, c ∈ VALID_AMINO_ACIDS) ∧
    invalid_chars (pyUpperList (pyStrip ['A', 'X', 'Z'])) = ['X', 'Z'] ∧
    invalidMessage ['X', 'Z'] = "Invalid characters: X, Z" := by
  refine ⟨List.filter_sublist s, ?_, ?_, by decide, by decide⟩
  · intro c
    by_cases hc : c ∈ VALID_AMINO_ACIDS
    · rw [if_pos hc, List.count_eq_zero]
      intro hmem
      have := (List.mem_filter.mp hmem).2
      simp only [decide_eq_true_eq] at this
      exact this hc
    · rw [if_neg hc]
      exact List.count_filter (by simpa using hc)
  · unfold invalid_chars
    rw [List.filter_eq_nil_iff]
    constructor
    · intro he c hcs
      by_contra hnc
      exact he c hcs (by simpa using hnc)
    · intro hall c hcs
      simp only [decide_eq_true_eq, Decidable.not_not]
      exact hall c hcs

theorem round2_div_100 (n : ℕ) : round2 ((n : ℚ) / 100) = (n : ℚ) / 100 := by
  unfold round2
  rw [div_mul_cancel₀ (n : ℚ) (by norm_num), round_natCast]
  push_cast
  ring

theorem weights_centi : ∀ p ∈ AMINO_ACID_WEIGHTS, ∃ n : ℕ, p.2 = (n : ℚ) / 100 := by
  intro p hp
  fin_cases hp
  · exact ⟨8909, by norm_num⟩
  · exact ⟨17420, by norm_num⟩
  · exact ⟨13212, by norm_num⟩
  · exact ⟨13310, by norm_num⟩
  · exact ⟨12115, by norm_num⟩
  · exact ⟨14615, by norm_num⟩
  · exact ⟨14713, by norm_num⟩
  · exact ⟨7507, by norm_num⟩
  · exact ⟨15516, by norm_num⟩
  · exact ⟨13117, by norm_num⟩
  · exact ⟨13117, by norm_num⟩
  · exact ⟨14619, by norm_num⟩
  · exact ⟨14921, by norm_num⟩
  · exact ⟨16519, by norm_num⟩
  · exact ⟨11513, by norm_num⟩
  · exact ⟨10509, by norm_num⟩
  · exact ⟨11912, by norm_num⟩
  · exact ⟨20423, by norm_num⟩
  · exact ⟨18119, by norm_num⟩
  · exact ⟨11715, by norm_num⟩

theorem lookup_centi (c : Char) :
    ∀ l : List (Char × ℚ), (∀ p ∈ l, ∃ n : ℕ, p.2 = (n : ℚ) / 100) →
      ∃ n : ℕ, (l.lookup c).getD 0 = (n : ℚ) / 100 := by
  intro l
  induction l with
  | nil => intro _; exact ⟨0, by norm_num⟩
  | cons p t ih =>
      intro h
      obtain ⟨k, v⟩ := p
      rw [List.lookup_cons]
      by_cases hc : c = k
      · simp only [hc, beq_self_eq_true]
        exact ⟨(h (k, v) (List.mem_cons_self _ _)).choose,
               (h (k, v) (List.mem_cons_self _ _)).choose_spec⟩
      · have : (c == k) = false := beq_eq_false_iff_ne.mpr hc
        rw [this]
        exact ih fun q hq => h q (List.mem_cons_of_mem _ hq)

theorem weightOf_centi (c : Char) : ∃ n : ℕ, weightOf c = (n : ℚ) / 100 :=
  lookup_centi c AMINO_ACID_WEIGHTS weights_centi

theorem sum_weights_centi (l : List Char) :
    ∃ n : ℕ, (l.map weightOf).sum = (n : ℚ) / 100 := by
  induction l with
  | nil => exact ⟨0, by norm_num⟩
  | cons c t ih =>
      obtain ⟨m, hm⟩ := weightOf_centi c
      obtain ⟨n, hn⟩ := ih
      refine ⟨m + n, ?_⟩
      rw [List.map_cons, List.sum_cons, hm, hn]
      push_cast
      ring

/-- Claim C2 counterexample: on the lower-case sequence "a" the function
returns the table weight of A (the source upper-cases first), not the
rounded direct table sum over the characters of the input, which is 0
because lower-case a is not a table key. -/
theorem C2_counterexample :
    calculate_molecular_weight ['a']
      ≠ round2 (((['a'] : List Char).map weightOf).sum) := by
  have hup : pyUpperList ['a'] = ['A'] := by decide
  have hA : weightOf 'A' = 89.09 := rfl
  have ha : weightOf 'a' = 0 := rfl
  have hL : calculate_molecular_weight ['a'] = 89.09 := by
    unfold calculate_molecular_weight
    rw [hup, List.map_cons, List.map_nil, List.sum_cons, List.sum_nil, hA]
    have : (89.09 : ℚ) + 0 = (8909 : ℕ) / 100 := by norm_num
    rw [this, round2_div_100]
    norm_num
  have hR : round2 (((['a'] : List Char).map weightOf).sum) = 0 := by
    rw [List.map_cons, List.map_nil, List.sum_cons, List.sum_nil, ha]
    have : (0 : ℚ) + 0 = (0 : ℕ) / 100 := by norm_num
    rw [this, round2_div_100]
    norm_num
  rw [hL, hR]
  norm_num

/-- Claim C2 (amended): `calculate_molecular_weight` equals the rounded
table sum over the UPPER-CASED characters (unknown characters
contributing 0); for a sequence that is already upper-cased — in
particular every valid sequence — it equals the rounded direct table
sum; and the result is always nonnegative. -/
theorem C2_molecular_weight (s : List Char) :
    calculate_molecular_weight s = round2 (((pyUpperList s).map weightOf).sum) ∧
    0 ≤ calculate_molecular_weight s ∧
    ((∀ c ∈ s, c.toUpper = c) →
      calculate_molecular_weight s = round2 ((s.map weightOf).sum)) := by
  obtain ⟨n, hn⟩ := sum_weights_centi (pyUpperList s)
  have hval : calculate_molecular_weight s = (n : ℚ) / 100 := by
    unfold calculate_molecular_weight
    rw [hn, round2_div_100]
  refine ⟨rfl, ?_, ?_⟩
  · rw [hval]
    positivity
  · intro h
    have hupper : pyUpperList s = s := by
      unfold pyUpperList
      conv_rhs => rw [← List.map_id s]
      exact List.map_congr_left fun a ha => h a ha
    unfold calculate_molecular_weight
    rw [hupper]

/-- Witness for the amended C2 at the single character G. -/
theorem C2_molecular_weight_witness :
    calculate_molecular_weight ['G'] = round2 (((pyUpperList ['G']).map weightOf).sum) ∧
    0 ≤ calculate_molecular_weight ['G'] ∧
    calculate_molecular_weight ['G'] = round2 (((['G'] : List Char).map weightOf).sum) := by
  obtain ⟨h1, h2, h3⟩ := C2_molecular_weight ['G']
  exact ⟨h1, h2, h3 (by decide)⟩

theorem mw_givgqcc : calculate_molecular_weight ("GIVGQCC".toList) = 786.91 := by
  have hup : pyUpperList ("GIVGQCC".toList) = "GIVGQCC".toList := by decide
  have hG : weightOf 'G' = 75.07 := rfl
  have hI : weightOf 'I' = 131.17 := rfl
  have hV : weightOf 'V' = 117.15 := rfl
  have hQ : weightOf 'Q' = 146.15 := rfl
  have hC : weightOf 'C' = 121.15 := rfl
  have hlist : "GIVGQCC".toList = ['G', 'I', 'V', 'G', 'Q', 'C', 'C'] := by decide
  unfold calculate_molecular_weight
  rw [hup, hlist]
  simp only [List.map_cons, List.map_nil, List.sum_cons, List.sum_nil,
    hG, hI, hV, hQ, hC]
  have hsum : (75.07 : ℚ) + (131.17 + (117.15 + (75.07 + (146.15 + (121.15 + (121.15 + 0))))))
      = (78691 : ℕ) / 100 := by norm_num
  rw [hsum, round2_div_100]
  norm_num

/-- Claim C5: submitting name Insulin-A and sequence givgqcc yields the
normalized sequence GIVGQCC, length 7, molecular weight 786.91, unique
count 5, and frequencies G=2, I=1, V=1, Q=1, C=2 with the 15 remaining
alphabet symbols mapped to 0. -/
theorem C5_insulin_scenario :
    analyze ("Insulin-A".toList) ("givgqcc".toList)
      = .ok { name := "Insulin-A".toList
              sequence := "GIVGQCC".toList
              length := 7
              molecular_weight := 786.91
              unique_count := 5
              frequencies :=
                [('A', 0), ('R', 0), ('N', 0), ('D', 0), ('C', 2),
                 ('E', 0), ('Q', 1), ('G', 2), ('H', 0), ('I', 1),
                 ('L', 0), ('K', 0), ('M', 0), ('F', 0), ('P', 0),
                 ('S', 0), ('T', 0), ('W', 0), ('Y', 0), ('V', 1)] } := by
  have hseq : pyUpperList (pyStrip ("givgqcc".toList)) = "GIVGQCC".toList := by decide
  simp only [analyze]
  rw [if_neg (by decide), hseq, if_neg (by decide)]
  simp only [AnalyzeResult.ok.injEq, ProteinData.mk.injEq]
  exact ⟨by decide, trivial, by decide, mw_givgqcc, by decide, by decide⟩

/-- Claim C6 counterexample: deleting id 1 from an empty store leaves
the store unchanged, but the handler flashes the success message rather
than surfacing a not-found response. -/
theorem C6_counterexample :
    delete_protein [] 1 = ([], "Protein deleted successfully!") ∧
    (delete_protein [] 1).2 ≠ "Protein not found" := by
  exact ⟨rfl, by decide⟩

/-- Claim C6 (amended): deleting a nonexistent id leaves the store
state unchanged, and the handler flashes the unconditional success
message (it never produces a not-found response). -/
theorem C6_delete_nonexistent (db : List ProteinRow) (pid : Nat)
    (h : ∀ r ∈ db, r.id ≠ pid) :
    delete_protein db pid = (db, "Protein deleted successfully!") := by
  unfold delete_protein
  rw [List.filter_eq_self.mpr fun r hr => by simpa using h r hr]

/-- Witness for the amended C6 on a one-row store and an absent id. -/
theorem C6_delete_nonexistent_witness :
    delete_protein [demoRow] 2 = ([demoRow], "Protein deleted successfully!") :=
  C6_delete_nonexistent [demoRow] 2 (by decide)

/-- Claim C7 counterexample: the edit handler, given an empty name and
an empty sequence on an existing record, persists the update (the
stored sequence becomes empty) instead of surfacing a missing-input
error and leaving the row untouched. -/
theorem C7_counterexample :
    (edit_protein [demoRow] 1 [] []).1 = .updated 1 ∧
    ((edit_protein [demoRow] 1 [] []).2.map fun r => r.sequence) = [[]] ∧
    demoRow.sequence ≠ [] := by
  exact ⟨rfl, rfl, by decide⟩

/-- Claim C7 (amended): the create handler surfaces the missing-input
error when the name or the sequence is empty after trimming, producing
no record; the edit handler performs no such check and reports a
persisted update even when both fields are empty. -/
theorem C7_missing_input (name seq : List Char) (db : List ProteinRow) (pid : Nat)
    (hmiss : pyStrip name = [] ∨ pyStrip seq = [])
    (hrow : (db.find? fun r => decide (r.id = pid)).isSome) :
    analyze name seq = .missingInput ∧
    (edit_protein db pid name []).1 = .updated pid := by
  constructor
  · simp only [analyze]
    rw [if_pos hmiss]
  · obtain ⟨r, hr⟩ := Option.isSome_iff_exists.mp hrow
    simp only [edit_protein, hr]
    rw [if_neg (by decide)]

/-- Witness for the amended C7: empty name rejected by create; edit on
the demo row with empty fields still reports an update. -/
theorem C7_missing_input_witness :
    analyze [] ['A'] = .missingInput ∧
    (edit_protein [demoRow] 1 [] []).1 = .updated 1 :=
  C7_missing_input [] ['A'] [demoRow] 1 (Or.inl (by decide)) (by decide)

/-- Claim C9: the SQL-built search returns exactly the rows satisfying
the conjunction of the present contains-filters (name filter against
the stored name, sequence filter against the stored sequence), each
filter applied only when present; with no filters all rows are
returned. -/
theorem C9_search (db : List ProteinRow) (qn qs : List Char) :
    search db qn qs = searchSpec db qn qs ∧ search db [] [] = db := by
  constructor
  · unfold search searchSpec
    refine List.filter_congr fun r _ => ?_
    by_cases h1 : qn = [] <;> by_cases h2 : qs = [] <;>
      simp [rowConds, h1, h2, List.isEmpty_iff]
  · unfold search
    simp [rowConds, List.isEmpty_iff]

theorem space_cases {c : Char} (hc : isPySpace c = true) :
    c = ' ' ∨ c = '\t' ∨ c = '\n' ∨ c = '\r' ∨ c = '\x0b' ∨ c = '\x0c' := by
  have h := hc
  simp only [isPySpace, Bool.or_eq_true, decide_eq_true_eq] at h
  tauto

/-- Claim C10: trimming removes only leading and trailing whitespace,
so a whitespace character surviving the trim is carried into
validation, the submission is rejected as invalid with that character
among the offending characters, and no record is produced. -/
theorem C10_interior_whitespace (name seq : List Char) (c : Char)
    (hc : isPySpace c = true) (hmem : c ∈ pyStrip seq)
    (hname : pyStrip name ≠ []) :
    analyze name seq
      = .invalidChars (invalid_chars (pyUpperList (pyStrip seq))) ∧
    c ∈ invalid_chars (pyUpperList (pyStrip seq)) := by
  have hupper : c.toUpper = c := by
    rcases space_cases hc with rfl | rfl | rfl | rfl | rfl | rfl <;> decide
  have hnv : c ∉ VALID_AMINO_ACIDS := by
    rcases space_cases hc with rfl | rfl | rfl | rfl | rfl | rfl <;> decide
  have hcin : c ∈ pyUpperList (pyStrip seq) :=
    List.mem_map.mpr ⟨c, hmem, hupper⟩
  have hinv : c ∈ invalid_chars (pyUpperList (pyStrip seq)) :=
    List.mem_filter.mpr ⟨hcin, by simpa using hnv⟩
  have hne : invalid_chars (pyUpperList (pyStrip seq)) ≠ [] :=
    List.ne_nil_of_mem hinv
  refine ⟨?_, hinv⟩
  simp only [analyze]
  rw [if_neg (not_or.mpr ⟨hname, List.ne_nil_of_mem hmem⟩), if_pos hne]

/-- Witness for C10: the sequence GIV GQC keeps its interior space after
trimming and is rejected with the space among the offending characters. -/
theorem C10_interior_whitespace_witness :
    analyze ['P'] ['G', 'I', 'V', ' ', 'G', 'Q', 'C']
      = .invalidChars (invalid_chars (pyUpperList (pyStrip ['G', 'I', 'V', ' ', 'G', 'Q', 'C']))) ∧
    ' ' ∈ invalid_chars (pyUpperList (pyStrip ['G', 'I', 'V', ' ', 'G', 'Q', 'C'])) :=
  C10_interior_whitespace ['P'] ['G', 'I', 'V', ' ', 'G', 'Q', 'C'] ' '
    (by decide) (by decide) (by decide)

theorem digitVal_digitChar {d : Nat} (h : d < 10) : digitVal (digitChar d) = d := by
  interval_cases d <;> decide

theorem isDigit_digitChar {d : Nat} (h : d < 10) : (digitChar d).isDigit = true := by
  interval_cases d <;> decide

theorem natToChars_ne_nil (n : Nat) : natToChars n ≠ [] := by
  unfold natToChars
  by_cases h : n = 0
  · simp [h]
  · rw [if_neg h]
    intro hc
    have hd : (Nat.digits 10 n).reverse = [] := List.map_eq_nil_iff.mp hc
    exact Nat.digits_ne_nil_iff_ne_zero.mpr h (List.reverse_eq_nil_iff.mp hd)

theorem natToChars_all_digit (n : Nat) : ∀ c ∈ natToChars n, c.isDigit = true := by
  intro c hc
  unfold natToChars at hc
  by_cases h : n = 0
  · rw [if_pos h] at hc
    simp only [List.mem_singleton] at hc
    subst hc
    decide
  · rw [if_neg h, List.mem_map] at hc
    obtain ⟨d, hd, rfl⟩ := hc
    exact isDigit_digitChar (Nat.digits_lt_base (by norm_num) (List.mem_reverse.mp hd))

theorem charsToNat_natToChars (n : Nat) : charsToNat (natToChars n) = n := by
  by_cases h : n = 0
  · subst h
    decide
  · unfold charsToNat natToChars
    rw [if_neg h, List.map_map]
    have hmap : (Nat.digits 10 n).reverse.map (digitVal ∘ digitChar)
        = (Nat.digits 10 n).reverse := by
      conv_rhs => rw [← List.map_id ((Nat.digits 10 n).reverse)]
      refine List.map_congr_left fun d hd => ?_
      exact digitVal_digitChar (Nat.digits_lt_base (by norm_num) (List.mem_reverse.mp hd))
    rw [hmap, List.reverse_reverse, Nat.ofDigits_digits]

theorem takeWhile_append_cons (p : Char → Bool) (a : List Char) (x : Char)
    (xs : List Char) (ha : ∀ c ∈ a, p c = true) (hx : p x = false) :
    (a ++ x :: xs).takeWhile p = a := by
  induction a with
  | nil => simp [List.takeWhile_cons, hx]
  | cons b bs ih =>
      rw [List.cons_append, List.takeWhile_cons, ha b (List.mem_cons_self b bs)]
      simp only [if_true]
      rw [ih fun c hc => ha c (List.mem_cons_of_mem b hc)]

theorem dropWhile_append_cons (p : Char → Bool) (a : List Char) (x : Char)
    (xs : List Char) (ha : ∀ c ∈ a, p c = true) (hx : p x = false) :
    (a ++ x :: xs).dropWhile p = x :: xs := by
  induction a with
  | nil => simp [List.dropWhile_cons, hx]
  | cons b bs ih =>
      rw [List.cons_append, List.dropWhile_cons, ha b (List.mem_cons_self b bs)]
      simp only [if_true]
      exact ih fun c hc => ha c (List.mem_cons_of_mem b hc)

theorem parseNat_natToChars (n : Nat) (x : Char) (xs : List Char)
    (hx : x.isDigit = false) :
    parseNat (natToChars n ++ x :: xs) = some (n, x :: xs) := by
  simp only [parseNat]
  rw [takeWhile_append_cons _ _ _ _ (natToChars_all_digit n) hx,
      dropWhile_append_cons _ _ _ _ (natToChars_all_digit n) hx,
      if_neg (by simpa [List.isEmpty_iff] using natToChars_ne_nil n),
      charsToNat_natToChars]

theorem parseEntry_serializeEntry (p : Char × Nat) (x : Char) (xs : List Char)
    (hx : x.isDigit = false) :
    parseEntry (serializeEntry p ++ x :: xs) = some (p, x :: xs) := by
  obtain ⟨c, n⟩ := p
  show parseEntry ('"' :: c :: '"' :: ':' :: ' ' :: (natToChars n ++ x :: xs)) = _
  simp only [parseEntry, parseNat_natToChars n x xs hx]

theorem length_le_serializeEntries :
    ∀ f : List (Char × Nat), f.length ≤ (serializeEntries f).length := by
  intro f
  induction f with
  | nil => simp [serializeEntries]
  | cons p ps ih =>
      cases ps with
      | nil => simp [serializeEntries, serializeEntry]
      | cons q qs =>
          have hstep : serializeEntries (p :: q :: qs)
              = serializeEntry p ++ ',' :: ' ' :: serializeEntries (q :: qs) := rfl
          rw [hstep, List.length_append]
          simp only [List.length_cons] at ih ⊢
          omega

theorem parseEntriesAux_serializeEntries :
    ∀ (f : List (Char × Nat)) (fuel : Nat), f ≠ [] → f.length ≤ fuel →
      parseEntriesAux fuel (serializeEntries f ++ ['\x7d'])
        = some (f, ['\x7d']) := by
  intro f
  induction f with
  | nil => intro fuel h _; exact absurd rfl h
  | cons p ps ih =>
      intro fuel _ hfuel
      cases fuel with
      | zero => simp at hfuel
      | succ fl =>
          cases ps with
          | nil =>
              show parseEntriesAux (fl + 1) (serializeEntry p ++ ['\x7d']) = _
              simp only [parseEntriesAux,
                parseEntry_serializeEntry p '\x7d' [] (by decide)]
              rfl
          | cons q qs =>
              have hstep : serializeEntries (p :: q :: qs) ++ ['\x7d']
                  = serializeEntry p
                    ++ ',' :: ' ' :: (serializeEntries (q :: qs) ++ ['\x7d']) := by
                show (serializeEntry p ++ ',' :: ' ' :: serializeEntries (q :: qs))
                    ++ ['\x7d'] = _
                rw [List.append_assoc]
                rfl
              rw [hstep]
              have hrec := ih fl (by simp) (by simp at hfuel ⊢; omega)
              simp only [parseEntriesAux,
                parseEntry_serializeEntry p ',' _ (by decide), hrec]

theorem deserialize_quote (t : List Char) :
    deserialize ('\x7b' :: '"' :: t)
      = match parseEntriesAux ('"' :: t).length ('"' :: t) with
        | some (es, ['\x7d']) => some es
        | _ => none := rfl

/-- Claim C8: deserializing the serialized textual encoding of a
frequency mapping keyed by the 20 alphabet symbols returns exactly the
same mapping. -/
theorem C8_serialization_roundtrip (f : List (Char × Nat))
    (hkeys : f.map Prod.fst = VALID_AMINO_ACIDS) :
    deserialize (serialize f) = some f := by
  have hne : f ≠ [] := by
    intro h
    rw [h] at hkeys
    exact absurd hkeys (by decide)
  obtain ⟨p, ps, rfl⟩ := List.exists_cons_of_ne_nil hne
  obtain ⟨c, n⟩ := p
  obtain ⟨t, ht⟩ : ∃ t, serializeEntries ((c, n) :: ps) ++ ['\x7d'] = '"' :: t := by
    cases ps <;> exact ⟨_, rfl⟩
  have hfuel : ((c, n) :: ps).length
      ≤ (serializeEntries ((c, n) :: ps) ++ ['\x7d']).length := by
    rw [List.length_append]
    have := length_le_serializeEntries ((c, n) :: ps)
    omega
  show deserialize ('\x7b' :: (serializeEntries ((c, n) :: ps) ++ ['\x7d'])) = _
  rw [ht, deserialize_quote, ← ht,
      parseEntriesAux_serializeEntries ((c, n) :: ps) _ (by simp) hfuel]
  rfl

/-- Witness for C8 on the all-zero frequency mapping over the alphabet. -/
theorem C8_serialization_roundtrip_witness :
    deserialize (serialize freqInit) = some freqInit :=
  C8_serialization_roundtrip freqInit (by decide)

end ProteinApp
